import Mathlib

/-!
Verification of the streaming markdown pipeline in `src/lib/streaming-down.ts`.

The development shallowly embeds the four classes of the source file:

* `MarkdownStreamChunker` (the Segmenter): `ChunkerState`, `chunkerWrite`,
  `chunkerEnd`, emitting `ChunkEvent`s;
* `MarkdownParser` (the Renderer Adapter): `mdParse` with `countFences`,
  parameterised by the external `marked.parse` library function;
* `HTMLRenderer` (the Mount Surface): `RendererState` with `createBlock`,
  `updateBlock`, `finalizeBlock`, `clearAll`;
* `StreamingMarkdownParser` (the Orchestrator): `OrchState`, `orchStep`.

Text is modelled as `List Char` (the source operates on JS strings, scanning
for the two-character boundary marker `"\n\n"` with `indexOf`).  Event
emission is modelled by returning the list of events an operation emits, in
emission order; listener dispatch is the orchestrator folding its handlers
over that list, which is observationally equivalent to the source's
synchronous callbacks because the handlers never call back into the chunker.
-/

namespace StreamingDown

/-! ## Segmenter: `MarkdownStreamChunker` -/

/-- The boundary marker: a blank line, i.e. `"\n\n"` (source line 46). -/
def marker : List Char := ['\n', '\n']

/-- `cutOnce data` models one iteration of the scan in
`MarkdownStreamChunker.write`: `data.indexOf("\n\n")`, returning the text
before the leftmost marker and the text after it (`data.slice(idx + 2)`),
or `none` when `indexOf` yields `-1`. -/
def cutOnce : List Char → Option (List Char × List Char)
  | [] => none
  | [_] => none
  | c1 :: c2 :: rest =>
    if c1 = '\n' ∧ c2 = '\n' then some ([], rest)
    else (cutOnce (c2 :: rest)).map fun pr => (c1 :: pr.1, pr.2)

theorem cutOnce_eq_some : ∀ {d : List Char} {pr : List Char × List Char},
    cutOnce d = some pr → d = pr.1 ++ '\n' :: '\n' :: pr.2 := by
  intro d
  induction d with
  | nil => intro pr h; simp [cutOnce] at h
  | cons c1 tl ih =>
    intro pr h
    match tl with
    | [] => simp [cutOnce] at h
    | c2 :: rest =>
      rw [cutOnce] at h
      by_cases hm : c1 = '\n' ∧ c2 = '\n'
      · rw [if_pos hm] at h
        cases h
        simp [hm.1, hm.2]
      · rw [if_neg hm] at h
        cases h2 : cutOnce (c2 :: rest) with
        | none => rw [h2] at h; simp at h
        | some pr' =>
          rw [h2] at h
          simp only [Option.map_some'] at h
          cases h
          have := ih h2
          simp [this]

theorem cutOnce_length {d : List Char} {pr : List Char × List Char}
    (h : cutOnce d = some pr) : pr.2.length < d.length := by
  have := cutOnce_eq_some h
  subst this
  simp
  omega

/-- `splitAll data` runs the boundary scan to exhaustion: the first component
is the list of completed block texts (the texts before each successive
leftmost marker), the second is the remaining text after the last marker.
(Defined by structural recursion; `splitAll_none` and `splitAll_some` below
show that it computes exactly the iterated leftmost-`cutOnce` scan.) -/
def splitAll : List Char → List (List Char) × List Char
  | [] => ([], [])
  | [c] => ([], [c])
  | c1 :: c2 :: rest =>
    if c1 = '\n' ∧ c2 = '\n' then
      (([] : List Char) :: (splitAll rest).1, (splitAll rest).2)
    else
      match splitAll (c2 :: rest) with
      | ([], r) => ([], c1 :: r)
      | (p :: ps, r) => ((c1 :: p) :: ps, r)

/-- Induction following the leftmost-marker scan. -/
theorem cut_induction {motive : List Char → Prop} (d : List Char)
    (base : ∀ d, cutOnce d = none → motive d)
    (step : ∀ d pr, cutOnce d = some pr → motive pr.2 → motive d) :
    motive d := by
  have key : ∀ n d, List.length d ≤ n → motive d := by
    intro n
    induction n with
    | zero =>
      intro d hd
      have hnil : d = [] := List.length_eq_zero.mp (Nat.le_zero.mp hd)
      subst hnil
      exact base [] rfl
    | succ n ih =>
      intro d hd
      cases hc : cutOnce d with
      | none => exact base d hc
      | some pr =>
        refine step d pr hc (ih pr.2 ?_)
        have := cutOnce_length hc
        omega
  exact key d.length d le_rfl

theorem splitAll_none {d : List Char} (h : cutOnce d = none) :
    splitAll d = ([], d) := by
  induction d with
  | nil => rfl
  | cons c1 tl ih =>
    match tl with
    | [] => rfl
    | c2 :: rest =>
      rw [cutOnce] at h
      by_cases hm : c1 = '\n' ∧ c2 = '\n'
      · rw [if_pos hm] at h
        simp at h
      · rw [if_neg hm] at h
        cases h2 : cutOnce (c2 :: rest) with
        | none =>
          rw [splitAll, if_neg hm, ih h2]
        | some pr' => rw [h2] at h; simp at h

theorem splitAll_some : ∀ {d : List Char} {pr : List Char × List Char},
    cutOnce d = some pr →
    splitAll d = (pr.1 :: (splitAll pr.2).1, (splitAll pr.2).2) := by
  intro d
  induction d with
  | nil => intro pr h; simp [cutOnce] at h
  | cons c1 tl ih =>
    intro pr h
    match tl with
    | [] => simp [cutOnce] at h
    | c2 :: rest =>
      rw [cutOnce] at h
      by_cases hm : c1 = '\n' ∧ c2 = '\n'
      · rw [if_pos hm] at h
        cases h
        rw [splitAll, if_pos hm]
      · rw [if_neg hm] at h
        cases h2 : cutOnce (c2 :: rest) with
        | none => rw [h2] at h; simp at h
        | some pr' =>
          rw [h2] at h
          simp only [Option.map_some'] at h
          cases h
          rw [splitAll, if_neg hm, ih h2]

/-- Block identifiers as issued by the source: `` `block-${this.nextBlockId++}` ``. -/
def blockName (n : Nat) : String := "block-" ++ toString n

/-- Events emitted by the chunker (source `ChunkerEvent` plus payloads). -/
inductive ChunkEvent where
  | blockStart (blockId : String)
  | blockUpdate (blockId : String) (content : List Char)
  | blockEnd (blockId : String)
  | streamEnd
deriving DecidableEq

/-- The private mutable fields of `MarkdownStreamChunker`. -/
structure ChunkerState where
  buffer : List Char
  nextBlockId : Nat
  currentBlockId : Option String
deriving DecidableEq

/-- Initial chunker: `buffer = ""`, `nextBlockId = 1`, `currentBlockId = null`. -/
def chunkerInit : ChunkerState := ⟨[], 1, none⟩

/-- `emitUpdate` of the source, with its internal `emitStart()` call inlined:
if no block is open, a fresh identifier is assigned (post-incrementing
`nextBlockId`) and a `block-start` event precedes the `block-update`. -/
def emitUpdate (s : ChunkerState) (content : List Char) :
    ChunkerState × List ChunkEvent :=
  match s.currentBlockId with
  | some bid => (s, [.blockUpdate bid content])
  | none =>
    let bid := blockName s.nextBlockId
    ({ s with currentBlockId := some bid, nextBlockId := s.nextBlockId + 1 },
     [.blockStart bid, .blockUpdate bid content])

/-- `emitEnd` of the source: close the current block if one is open. -/
def emitClose (s : ChunkerState) : ChunkerState × List ChunkEvent :=
  match s.currentBlockId with
  | none => (s, [])
  | some bid => ({ s with currentBlockId := none }, [.blockEnd bid])

/-- The body of `MarkdownStreamChunker.write` after `data = buffer + chunk;
buffer = ""`: repeatedly cut at the leftmost `"\n\n"`, emitting an update and
a close per completed block; whatever remains becomes the new buffer and is
emitted as the current block's ongoing content (if non-empty). -/
def writeLoop (s : ChunkerState) (data : List Char) :
    ChunkerState × List ChunkEvent :=
  match h : cutOnce data with
  | some pr =>
    let u := emitUpdate s pr.1
    let e := emitClose u.1
    let w := writeLoop e.1 pr.2
    (w.1, u.2 ++ e.2 ++ w.2)
  | none =>
    if data = [] then (s, [])
    else ({ (emitUpdate s data).1 with buffer := data }, (emitUpdate s data).2)
termination_by data.length
decreasing_by
  exact cutOnce_length h

/-- `MarkdownStreamChunker.write(chunk)`. -/
def chunkerWrite (s : ChunkerState) (chunk : List Char) :
    ChunkerState × List ChunkEvent :=
  writeLoop { s with buffer := [] } (s.buffer ++ chunk)

/-- `MarkdownStreamChunker.end()`: flush the remaining block (if any), then
always emit the terminal `end` event. -/
def chunkerEnd (s : ChunkerState) : ChunkerState × List ChunkEvent :=
  if s.buffer = [] then (s, [.streamEnd])
  else
    let u := emitUpdate s s.buffer
    let e := emitClose { u.1 with buffer := [] }
    (e.1, u.2 ++ e.2 ++ [.streamEnd])

/-- Feed a list of fragments to the chunker with successive `write` calls,
collecting all emitted events in order. -/
def runWrites (s : ChunkerState) : List (List Char) → ChunkerState × List ChunkEvent
  | [] => (s, [])
  | f :: fs =>
    let w := chunkerWrite s f
    let r := runWrites w.1 fs
    (r.1, w.2 ++ r.2)

/-! ## Renderer Adapter: `MarkdownParser` -/

/-- Number of non-overlapping occurrences of ```` ``` ```` scanned left to
right, as counted by `markdown.match(/```/g)` in `MarkdownParser.parse`. -/
def countFences : List Char → Nat
  | '`' :: '`' :: '`' :: rest => countFences rest + 1
  | _ :: rest => countFences rest
  | [] => 0

/-- Result of `MarkdownParser.parse`. -/
structure ParseResult where
  html : List Char
  isComplete : Bool
deriving DecidableEq

/-- `MarkdownParser.parse(markdown)`: `html = marked.parse(markdown)` (the
external `marked` library, modelled by the parameter `markedParse`), and
`isComplete` iff the fence count is even.  The source class has no mutable
fields, so `parse` is a pure function of its argument. -/
def mdParse (markedParse : List Char → List Char) (markdown : List Char) :
    ParseResult :=
  { html := markedParse markdown
    isComplete := countFences markdown % 2 == 0 }

/-! ## Mount Surface: `HTMLRenderer` -/

/-- One `<div data-block-id=...>`: its `innerHTML` (last assigned) and
whether the `md-block-complete` class has been added. -/
structure BlockEl where
  innerHTML : List Char
  finalized : Bool
deriving DecidableEq

/-- The renderer's `blocks: Map<string, HTMLElement>`, in insertion order.
Identifiers issued by the chunker are fresh, so `Map.set` on `createBlock`
is modelled as appending a new entry. -/
structure RendererState where
  blocks : List (String × BlockEl)
deriving DecidableEq

/-- `HTMLRenderer.createBlock`: a fresh empty `div` is inserted for `bid`. -/
def createBlock (r : RendererState) (bid : String) : RendererState :=
  { blocks := r.blocks ++ [(bid, ⟨[], false⟩)] }

/-- Update the entry with key `bid`, if present. -/
def setBlock (l : List (String × BlockEl)) (bid : String)
    (f : BlockEl → BlockEl) : List (String × BlockEl) :=
  l.map fun kv => if kv.1 = bid then (kv.1, f kv.2) else kv

/-- `HTMLRenderer.updateBlock`: `el.innerHTML = html` if the block exists. -/
def updateBlock (r : RendererState) (bid : String) (html : List Char) :
    RendererState :=
  { blocks := setBlock r.blocks bid fun el => { el with innerHTML := html } }

/-- `HTMLRenderer.finalizeBlock`: add the `md-block-complete` class iff the
element exists *and* `isComplete` (source line 154). -/
def finalizeBlock (r : RendererState) (bid : String) (isComplete : Bool) :
    RendererState :=
  if isComplete then
    { blocks := setBlock r.blocks bid fun el => { el with finalized := true } }
  else r

/-! ## Orchestrator: `StreamingMarkdownParser` -/

inductive SessionState where
  | idle
  | processing
  | paused
  | destroyed
deriving DecidableEq

/-- The orchestrator's fields: the owned chunker and renderer, the lifecycle
`state`, and whether the four chunker listeners are attached (`hookup`
attaches them; `destroy` removes them with `off`). -/
structure OrchState where
  chunker : ChunkerState
  renderer : RendererState
  state : SessionState
  attached : Bool
deriving DecidableEq

/-- Handler `onBlockStart` (returns early unless `processing`). -/
def onBlockStart (o : OrchState) (bid : String) : OrchState :=
  if o.state = .processing then
    { o with renderer := createBlock o.renderer bid }
  else o

/-- Handler `onBlockUpdate`: parse the cumulative content and write the
resulting html into the block's region.  `isComplete` is computed by
`parse` but not used here (finalization waits for `block-end`). -/
def onBlockUpdate (markedParse : List Char → List Char) (o : OrchState)
    (bid : String) (content : List Char) : OrchState :=
  if o.state = .processing then
    { o with renderer :=
        updateBlock o.renderer bid (mdParse markedParse content).html }
  else o

/-- `container?.innerText || ""` in `onBlockEnd`: the block's final text is
re-derived from what the renderer currently holds for `bid`.  `innerText`
extraction from the stored `innerHTML` is the external DOM's behaviour,
modelled by the parameter `innerTextOf`; a missing region yields `""`. -/
def derivedFinalText (innerTextOf : List Char → List Char)
    (r : RendererState) (bid : String) : List Char :=
  match r.blocks.lookup bid with
  | some el => innerTextOf el.innerHTML
  | none => []

/-- Handler `onBlockEnd`: re-parse the re-derived final content and instruct
the renderer to finalize the region iff it is structurally complete. -/
def onBlockEnd (markedParse innerTextOf : List Char → List Char)
    (o : OrchState) (bid : String) : OrchState :=
  if o.state = .processing then
    let finalMD := derivedFinalText innerTextOf o.renderer bid
    { o with renderer :=
        finalizeBlock o.renderer bid (mdParse markedParse finalMD).isComplete }
  else o

/-- Handler `onEnd`: unconditionally sets the state to `idle`. -/
def onEnd (o : OrchState) : OrchState := { o with state := .idle }

/-- Dispatch of a single chunker event to the corresponding handler. -/
def handleEvent (markedParse innerTextOf : List Char → List Char)
    (o : OrchState) : ChunkEvent → OrchState
  | .blockStart bid => onBlockStart o bid
  | .blockUpdate bid content => onBlockUpdate markedParse o bid content
  | .blockEnd bid => onBlockEnd markedParse innerTextOf o bid
  | .streamEnd => onEnd o

/-- Synchronous delivery of the events a chunker call emitted: the handlers
run in emission order, and only while the listeners are attached. -/
def dispatch (markedParse innerTextOf : List Char → List Char)
    (o : OrchState) (evts : List ChunkEvent) : OrchState :=
  if o.attached then evts.foldl (handleEvent markedParse innerTextOf) o else o

/-- The public control surface of `StreamingMarkdownParser`. -/
inductive Op where
  | write (chunk : List Char)
  | endStream
  | pause
  | resume
  | destroy
deriving DecidableEq

/-- One public call.  Returns the resulting orchestrator state and the list
of Segmenter events emitted during the call (empty when the call is
dropped by the lifecycle guard). -/
def orchStep (markedParse innerTextOf : List Char → List Char)
    (o : OrchState) : Op → OrchState × List ChunkEvent
  | .write chunk =>
    if o.state = .processing then
      let w := chunkerWrite o.chunker chunk
      (dispatch markedParse innerTextOf { o with chunker := w.1 } w.2, w.2)
    else (o, [])
  | .endStream =>
    if o.state = .processing then
      let w := chunkerEnd o.chunker
      (dispatch markedParse innerTextOf { o with chunker := w.1 } w.2, w.2)
    else (o, [])
  | .pause =>
    (if o.state = .processing then { o with state := .paused } else o, [])
  | .resume =>
    (if o.state = .paused then { o with state := .processing } else o, [])
  | .destroy =>
    ({ o with state := .destroyed, renderer := ⟨[]⟩, attached := false }, [])

/-- State after the constructor: fresh chunker, cleared mount surface, and
`hookup()` has set the state to `processing` and attached the listeners. -/
def orchInit : OrchState := ⟨chunkerInit, ⟨[]⟩, .processing, true⟩

/-- Run a sequence of public calls, collecting all Segmenter events. -/
def runOps (markedParse innerTextOf : List Char → List Char)
    (o : OrchState) : List Op → OrchState × List ChunkEvent
  | [] => (o, [])
  | op :: ops =>
    let w := orchStep markedParse innerTextOf o op
    let r := runOps markedParse innerTextOf w.1 ops
    (r.1, w.2 ++ r.2)

/-! ## Observations of the event stream

The claims speak about blocks, their cumulative update texts and their
identifiers.  These are read off the emitted event list. -/

/-- Running record of the blocks described by an event stream: the closed
blocks with the content of the *last* update each received (in close order,
which coincides with identifier-issue order), and the still-open block with
its last update content. -/
structure BlockTrace where
  closed : List (String × List Char)
  openBlock : Option (String × List Char)
deriving DecidableEq

def traceStep (t : BlockTrace) : ChunkEvent → BlockTrace
  | .blockStart bid => { t with openBlock := some (bid, []) }
  | .blockUpdate bid content => { t with openBlock := some (bid, content) }
  | .blockEnd bid =>
    { closed := t.closed ++ [(bid, (t.openBlock.map Prod.snd).getD [])]
      openBlock := none }
  | .streamEnd => t

def traceFrom (t : BlockTrace) (evts : List ChunkEvent) : BlockTrace :=
  evts.foldl traceStep t

/-- The blocks of a whole event stream. -/
def trace (evts : List ChunkEvent) : BlockTrace := traceFrom ⟨[], none⟩ evts

/-- Final texts of the closed blocks, in order. -/
def finalTexts (t : BlockTrace) : List (List Char) := t.closed.map Prod.snd

/-- Each closed block's final text followed by the boundary marker that
closed it, concatenated. -/
def joinMarked (l : List (List Char)) : List Char :=
  (l.map (· ++ marker)).flatten

/-- The identifiers carried by `block-start` events, in emission order. -/
def startIds (evts : List ChunkEvent) : List String :=
  evts.filterMap fun e =>
    match e with
    | .blockStart bid => some bid
    | _ => none

/-- Well-formedness scan: `some cur` is the id of the currently open block.
A `block-start` requires no open block; every `block-update` / `block-end`
must carry exactly the open block's id.  Returns `none` on violation, else
the open block after the whole stream. -/
def wfStep : Option (Option String) → ChunkEvent → Option (Option String)
  | none, _ => none
  | some cur, e =>
    match cur, e with
    | none, .blockStart bid => some (some bid)
    | some bid, .blockUpdate bid' _ => if bid' = bid then some (some bid) else none
    | some bid, .blockEnd bid' => if bid' = bid then some none else none
    | c, .streamEnd => some c
    | _, _ => none

def wfScan (cur : Option String) (evts : List ChunkEvent) :
    Option (Option String) :=
  evts.foldl wfStep (some cur)

/-- Consecutive identifier labels for a list of block texts. -/
def idLabel (n : Nat) : List (List Char) → List (String × List Char)
  | [] => []
  | p :: ps => (blockName n, p) :: idLabel (n + 1) ps

/-- The event sequence the chunker emits for a run of blocks that are opened
and closed within one `write`: `block-start`, one cumulative `block-update`,
`block-end`, with consecutive identifiers. -/
def partsEvts (n : Nat) : List (List Char) → List ChunkEvent
  | [] => []
  | p :: ps =>
    .blockStart (blockName n) :: .blockUpdate (blockName n) p ::
      .blockEnd (blockName n) :: partsEvts (n + 1) ps

/-! ## Lemmas about the boundary scan -/

theorem joinMarked_nil : joinMarked [] = [] := rfl

theorem joinMarked_cons (p : List Char) (ps : List (List Char)) :
    joinMarked (p :: ps) = p ++ marker ++ joinMarked ps := by
  simp [joinMarked]

theorem joinMarked_append (a b : List (List Char)) :
    joinMarked (a ++ b) = joinMarked a ++ joinMarked b := by
  simp [joinMarked]

/-- The leftmost marker is unchanged by appending more text. -/
theorem cutOnce_append {d : List Char} {pr : List Char × List Char}
    (h : cutOnce d = some pr) (x : List Char) :
    cutOnce (d ++ x) = some (pr.1, pr.2 ++ x) := by
  induction d generalizing pr with
  | nil => simp [cutOnce] at h
  | cons c1 tl ih =>
    match tl with
    | [] => simp [cutOnce] at h
    | c2 :: rest =>
      rw [cutOnce] at h
      rw [List.cons_append, List.cons_append, cutOnce]
      by_cases hm : c1 = '\n' ∧ c2 = '\n'
      · rw [if_pos hm] at h
        rw [if_pos hm]
        cases h
        rfl
      · rw [if_neg hm] at h
        rw [if_neg hm]
        cases h2 : cutOnce (c2 :: rest) with
        | none => rw [h2] at h; simp at h
        | some pr' =>
          rw [h2] at h
          simp only [Option.map_some'] at h
          cases h
          have h3 := ih h2
          rw [← List.cons_append, h3]
          rfl

/-- Conservation of the scan: the completed parts, each followed by the
marker that closed it, then the remainder, reassemble the input exactly. -/
theorem splitAll_conserve (d : List Char) :
    joinMarked (splitAll d).1 ++ (splitAll d).2 = d := by
  induction d using cut_induction with
  | base d h => rw [splitAll_none h]; simp [joinMarked]
  | step d pr h ih =>
    rw [splitAll_some h]
    have hd := cutOnce_eq_some h
    simp only [joinMarked_cons]
    rw [List.append_assoc, List.append_assoc, ih, hd]
    simp [marker]

/-- Scanning a concatenation: first scan the left part; the remainder joins
the right part and is scanned again.  This is why re-prepending the buffer
on every `write` makes the chunker insensitive to fragmentation. -/
theorem splitAll_append (a b : List Char) :
    splitAll (a ++ b) =
      ((splitAll a).1 ++ (splitAll ((splitAll a).2 ++ b)).1,
       (splitAll ((splitAll a).2 ++ b)).2) := by
  induction a using cut_induction with
  | base a h => rw [splitAll_none h]; simp
  | step a pr h ih =>
    rw [splitAll_some (cutOnce_append h b), splitAll_some h]
    dsimp only
    rw [ih]
    simp

/-! ## Characterization of the chunker's write loop -/

theorem writeLoop_nil (s : ChunkerState) : writeLoop s [] = (s, []) := by
  rw [writeLoop]
  rfl

theorem writeLoop_rem {data : List Char} (h : cutOnce data = none)
    (hne : data ≠ []) (s : ChunkerState) :
    writeLoop s data =
      ({ (emitUpdate s data).1 with buffer := data }, (emitUpdate s data).2) := by
  rw [writeLoop, h]
  simp [hne]

theorem writeLoop_cut {data : List Char} {pr : List Char × List Char}
    (h : cutOnce data = some pr) (s : ChunkerState) :
    writeLoop s data =
      ((writeLoop (emitClose (emitUpdate s pr.1).1).1 pr.2).1,
       (emitUpdate s pr.1).2 ++ (emitClose (emitUpdate s pr.1).1).2 ++
         (writeLoop (emitClose (emitUpdate s pr.1).1).1 pr.2).2) := by
  rw [writeLoop, h]

/-- The trailing events of a write whose remainder is `rem`: a fresh block
is opened for a non-empty remainder and receives one cumulative update. -/
def tailEvts (m : Nat) (rem : List Char) : List ChunkEvent :=
  if rem = [] then []
  else [.blockStart (blockName m), .blockUpdate (blockName m) rem]

/-- State and events produced by the write loop started with no open block:
each completed part becomes a full start/update/close triple with
consecutive identifiers, and the remainder (if any) opens one more block. -/
def closedResult (n : Nat) (parts : List (List Char)) (rem : List Char) :
    ChunkerState × List ChunkEvent :=
  (⟨rem, n + parts.length + (if rem = [] then 0 else 1),
    if rem = [] then none else some (blockName (n + parts.length))⟩,
   partsEvts n parts ++ tailEvts (n + parts.length) rem)

theorem writeLoop_closed (data : List Char) (n : Nat) :
    writeLoop ⟨[], n, none⟩ data =
      closedResult n (splitAll data).1 (splitAll data).2 := by
  induction data using cut_induction generalizing n with
  | base data h =>
    rw [splitAll_none h]
    by_cases hd : data = []
    · subst hd
      rw [writeLoop_nil]
      simp [closedResult, partsEvts, tailEvts]
    · rw [writeLoop_rem h hd]
      simp [emitUpdate, closedResult, partsEvts, tailEvts, hd]
  | step data pr h ih =>
    rw [splitAll_some h, writeLoop_cut h]
    simp only [emitUpdate, emitClose]
    rw [ih]
    simp [closedResult, partsEvts, tailEvts, Nat.add_comm, Nat.add_assoc,
      Nat.add_left_comm]

theorem writeLoop_openNone {data : List Char} (h : cutOnce data = none)
    (hne : data ≠ []) (n : Nat) (bid : String) :
    writeLoop ⟨[], n, some bid⟩ data =
      (⟨data, n, some bid⟩, [.blockUpdate bid data]) := by
  rw [writeLoop_rem h hne]
  simp [emitUpdate]

theorem writeLoop_openCut {data : List Char} {pr : List Char × List Char}
    (h : cutOnce data = some pr) (n : Nat) (bid : String) :
    writeLoop ⟨[], n, some bid⟩ data =
      ((closedResult n (splitAll pr.2).1 (splitAll pr.2).2).1,
       .blockUpdate bid pr.1 :: .blockEnd bid ::
         (closedResult n (splitAll pr.2).1 (splitAll pr.2).2).2) := by
  rw [writeLoop_cut h]
  simp only [emitUpdate, emitClose]
  rw [writeLoop_closed]
  simp

/-! ## Reading blocks, identifiers and well-formedness off event shapes -/

theorem traceFrom_append (t : BlockTrace) (a b : List ChunkEvent) :
    traceFrom t (a ++ b) = traceFrom (traceFrom t a) b :=
  List.foldl_append _ _ _ _

theorem idLabel_append (n : Nat) (a b : List (List Char)) :
    idLabel n (a ++ b) = idLabel n a ++ idLabel (n + a.length) b := by
  induction a generalizing n with
  | nil => simp [idLabel]
  | cons p ps ih =>
    show (blockName n, p) :: idLabel (n + 1) (ps ++ b)
        = ((blockName n, p) :: idLabel (n + 1) ps) ++ idLabel (n + (ps.length + 1)) b
    rw [ih (n + 1)]
    have harith : n + 1 + ps.length = n + (ps.length + 1) := by omega
    rw [harith]
    rfl

theorem idLabel_snd (n : Nat) (ps : List (List Char)) :
    (idLabel n ps).map Prod.snd = ps := by
  induction ps generalizing n with
  | nil => rfl
  | cons p ps ih => simp [idLabel, ih]

theorem traceFrom_partsEvts (t : BlockTrace) (n : Nat) (ps : List (List Char))
    (h : t.openBlock = none) :
    traceFrom t (partsEvts n ps) = ⟨t.closed ++ idLabel n ps, none⟩ := by
  induction ps generalizing n t with
  | nil => simp [partsEvts, traceFrom, idLabel, ← h]
  | cons p ps ih =>
    have hsplit : partsEvts n (p :: ps) =
        [ChunkEvent.blockStart (blockName n),
         ChunkEvent.blockUpdate (blockName n) p,
         ChunkEvent.blockEnd (blockName n)] ++ partsEvts (n + 1) ps := rfl
    have h3 : traceFrom t
        [ChunkEvent.blockStart (blockName n),
         ChunkEvent.blockUpdate (blockName n) p,
         ChunkEvent.blockEnd (blockName n)]
        = ⟨t.closed ++ [(blockName n, p)], none⟩ := by
      simp [traceFrom, traceStep]
    rw [hsplit, traceFrom_append, h3, ih _ _ rfl]
    simp [idLabel]

theorem traceFrom_tailEvts (t : BlockTrace) (m : Nat) (rem : List Char) :
    traceFrom t (tailEvts m rem) =
      if rem = [] then t else { t with openBlock := some (blockName m, rem) } := by
  by_cases hr : rem = [] <;> simp [tailEvts, hr, traceFrom, traceStep]

theorem startIds_append (a b : List ChunkEvent) :
    startIds (a ++ b) = startIds a ++ startIds b :=
  List.filterMap_append _ _ _

theorem startIds_partsEvts (n : Nat) (ps : List (List Char)) :
    startIds (partsEvts n ps) = (List.range' n ps.length).map blockName := by
  induction ps generalizing n with
  | nil => rfl
  | cons p ps ih =>
    simp only [partsEvts, startIds, List.filterMap_cons] at *
    rw [ih]
    simp [List.range'_succ]

theorem startIds_tailEvts (m : Nat) (rem : List Char) :
    startIds (tailEvts m rem) = if rem = [] then [] else [blockName m] := by
  by_cases hr : rem = [] <;> simp [tailEvts, hr, startIds, List.filterMap_cons]

theorem wfFold_none (b : List ChunkEvent) : List.foldl wfStep none b = none := by
  induction b with
  | nil => rfl
  | cons e rest ih => simp [List.foldl_cons, wfStep, ih]

theorem wfScan_append (cur : Option String) (a b : List ChunkEvent) :
    wfScan cur (a ++ b) =
      match wfScan cur a with
      | none => none
      | some c => wfScan c b := by
  unfold wfScan
  rw [List.foldl_append]
  cases h : List.foldl wfStep (some cur) a with
  | none => simp [wfFold_none]
  | some c => rfl

theorem wfScan_partsEvts (n : Nat) (ps : List (List Char)) :
    wfScan none (partsEvts n ps) = some none := by
  induction ps generalizing n with
  | nil => rfl
  | cons p ps ih =>
    have hsplit : partsEvts n (p :: ps) =
        [ChunkEvent.blockStart (blockName n),
         ChunkEvent.blockUpdate (blockName n) p,
         ChunkEvent.blockEnd (blockName n)] ++ partsEvts (n + 1) ps := rfl
    have h3 : wfScan none
        [ChunkEvent.blockStart (blockName n),
         ChunkEvent.blockUpdate (blockName n) p,
         ChunkEvent.blockEnd (blockName n)] = some none := by
      simp [wfScan, wfStep]
    rw [hsplit, wfScan_append, h3]
    exact ih (n + 1)

theorem wfScan_tailEvts (m : Nat) (rem : List Char) :
    wfScan none (tailEvts m rem) =
      some (if rem = [] then none else some (blockName m)) := by
  by_cases hr : rem = [] <;> simp [tailEvts, hr, wfScan, wfStep]

theorem range'_append_one (s a b : Nat) :
    List.range' s a ++ List.range' (s + a) b = List.range' s (a + b) := by
  have h := List.range'_append s a b 1
  rw [Nat.one_mul] at h
  rw [Nat.add_comm a b]
  exact h

theorem traceFrom_closedResult (t : BlockTrace) (n : Nat)
    (parts : List (List Char)) (rem : List Char) (h : t.openBlock = none) :
    traceFrom t (closedResult n parts rem).2 =
      ⟨t.closed ++ idLabel n parts,
       if rem = [] then none
       else some (blockName (n + parts.length), rem)⟩ := by
  show traceFrom t (partsEvts n parts ++ tailEvts (n + parts.length) rem) = _
  rw [traceFrom_append, traceFrom_partsEvts _ _ _ h, traceFrom_tailEvts]
  by_cases hr : rem = [] <;> simp [hr]

theorem startIds_closedResult (n : Nat) (parts : List (List Char))
    (rem : List Char) :
    startIds (closedResult n parts rem).2 =
      (List.range' n (parts.length + (if rem = [] then 0 else 1))).map
        blockName := by
  show startIds (partsEvts n parts ++ tailEvts (n + parts.length) rem) = _
  rw [startIds_append, startIds_partsEvts, startIds_tailEvts]
  by_cases hr : rem = [] <;> simp [hr]
  have h1 : [blockName (n + parts.length)]
      = (List.range' (n + parts.length) 1).map blockName := rfl
  rw [h1, ← List.map_append, range'_append_one]


theorem wfScan_closedResult (n : Nat) (parts : List (List Char))
    (rem : List Char) :
    wfScan none (closedResult n parts rem).2 =
      some (if rem = [] then none else some (blockName (n + parts.length))) := by
  show wfScan none (partsEvts n parts ++ tailEvts (n + parts.length) rem) = _
  rw [wfScan_append, wfScan_partsEvts]
  exact wfScan_tailEvts _ _

/-- One `write` from a state with no open block and an empty buffer. -/
theorem chunkerWrite_closed (n : Nat) (f : List Char) :
    chunkerWrite ⟨[], n, none⟩ f =
      closedResult n (splitAll f).1 (splitAll f).2 := by
  show writeLoop ⟨[], n, none⟩ ([] ++ f) = _
  rw [List.nil_append, writeLoop_closed]

/-- State and events produced by the write loop started on an open block
`bid` (the first completed part, if any, closes `bid`; afterwards the loop
continues as from a closed state). -/
def openResult (n : Nat) (bid : String) (parts : List (List Char))
    (rem : List Char) : ChunkerState × List ChunkEvent :=
  match parts with
  | [] => (⟨rem, n, some bid⟩, [.blockUpdate bid rem])
  | p :: ps =>
    ((closedResult n ps rem).1,
     .blockUpdate bid p :: .blockEnd bid :: (closedResult n ps rem).2)

theorem writeLoop_open (data : List Char) (hd : data ≠ []) (n : Nat)
    (bid : String) :
    writeLoop ⟨[], n, some bid⟩ data =
      openResult n bid (splitAll data).1 (splitAll data).2 := by
  cases h : cutOnce data with
  | none =>
    rw [splitAll_none h, writeLoop_openNone h hd]
    rfl
  | some pr =>
    rw [splitAll_some h, writeLoop_openCut h]
    rfl

/-- One `write` from a state with an open block and (non-empty) buffer `R`. -/
theorem chunkerWrite_open (n : Nat) (bid : String) (R f : List Char)
    (hR : R ≠ []) :
    chunkerWrite ⟨R, n, some bid⟩ f =
      openResult n bid (splitAll (R ++ f)).1 (splitAll (R ++ f)).2 := by
  show writeLoop ⟨[], n, some bid⟩ (R ++ f) = _
  exact writeLoop_open _ (by simp [hR]) _ _

theorem splitAll_parts_nil {d : List Char} (h : (splitAll d).1 = []) :
    (splitAll d).2 = d := by
  cases hc : cutOnce d with
  | none => rw [splitAll_none hc]
  | some pr => rw [splitAll_some hc] at h; simp at h

theorem trace_append (a b : List ChunkEvent) :
    trace (a ++ b) = traceFrom (trace a) b :=
  traceFrom_append _ _ _

theorem traceFrom_openResult_nil (t : BlockTrace) (n : Nat) (bid : String)
    (rem : List Char) :
    traceFrom t (openResult n bid [] rem).2 =
      { t with openBlock := some (bid, rem) } := by
  simp [openResult, traceFrom, traceStep]

theorem traceFrom_openResult_cons (t : BlockTrace) (n : Nat) (bid : String)
    (p : List Char) (ps : List (List Char)) (rem : List Char) :
    traceFrom t (openResult n bid (p :: ps) rem).2 =
      ⟨(t.closed ++ [(bid, p)]) ++ idLabel n ps,
       if rem = [] then none
       else some (blockName (n + ps.length), rem)⟩ := by
  show traceFrom t
      ([ChunkEvent.blockUpdate bid p, ChunkEvent.blockEnd bid] ++
        (closedResult n ps rem).2) = _
  rw [traceFrom_append]
  have h2 : traceFrom t [ChunkEvent.blockUpdate bid p, ChunkEvent.blockEnd bid]
      = ⟨t.closed ++ [(bid, p)], none⟩ := by
    simp [traceFrom, traceStep]
  rw [h2, traceFrom_closedResult _ _ _ _ rfl]

theorem startIds_openResult_nil (n : Nat) (bid : String) (rem : List Char) :
    startIds (openResult n bid [] rem).2 = [] := rfl

theorem startIds_openResult_cons (n : Nat) (bid : String) (p : List Char)
    (ps : List (List Char)) (rem : List Char) :
    startIds (openResult n bid (p :: ps) rem).2 =
      (List.range' n (ps.length + (if rem = [] then 0 else 1))).map
        blockName := by
  show startIds
      ([ChunkEvent.blockUpdate bid p, ChunkEvent.blockEnd bid] ++
        (closedResult n ps rem).2) = _
  rw [startIds_append, startIds_closedResult]
  rfl

theorem wfScan_openResult_nil (n : Nat) (bid : String) (rem : List Char) :
    wfScan (some bid) (openResult n bid [] rem).2 = some (some bid) := by
  simp [openResult, wfScan, wfStep]

theorem wfScan_openResult_cons (n : Nat) (bid : String) (p : List Char)
    (ps : List (List Char)) (rem : List Char) :
    wfScan (some bid) (openResult n bid (p :: ps) rem).2 =
      some (if rem = [] then none else some (blockName (n + ps.length))) := by
  show wfScan (some bid)
      ([ChunkEvent.blockUpdate bid p, ChunkEvent.blockEnd bid] ++
        (closedResult n ps rem).2) = _
  rw [wfScan_append]
  have h2 : wfScan (some bid)
      [ChunkEvent.blockUpdate bid p, ChunkEvent.blockEnd bid] = some none := by
    simp [wfScan, wfStep]
  rw [h2]
  exact wfScan_closedResult _ _ _

theorem runWrites_append (s : ChunkerState) (a b : List (List Char)) :
    runWrites s (a ++ b) =
      ((runWrites (runWrites s a).1 b).1,
       (runWrites s a).2 ++ (runWrites (runWrites s a).1 b).2) := by
  induction a generalizing s with
  | nil => simp [runWrites]
  | cons f fs ih => simp [runWrites, ih]

/-- Characterization of a session of `write` calls from the fresh chunker:
the final state, the blocks read off the event trace, the identifiers of
the emitted `block-start` events and event well-formedness are all
determined by the boundary scan `splitAll` of the concatenated input. -/
theorem run_char (fs : List (List Char)) :
    (runWrites chunkerInit fs).1 =
      ⟨(splitAll fs.flatten).2,
       1 + (splitAll fs.flatten).1.length +
         (if (splitAll fs.flatten).2 = [] then 0 else 1),
       if (splitAll fs.flatten).2 = [] then none
       else some (blockName (1 + (splitAll fs.flatten).1.length))⟩
    ∧ trace (runWrites chunkerInit fs).2 =
      ⟨idLabel 1 (splitAll fs.flatten).1,
       if (splitAll fs.flatten).2 = [] then none
       else some (blockName (1 + (splitAll fs.flatten).1.length),
                  (splitAll fs.flatten).2)⟩
    ∧ startIds (runWrites chunkerInit fs).2 =
      (List.range' 1 ((splitAll fs.flatten).1.length +
        (if (splitAll fs.flatten).2 = [] then 0 else 1))).map blockName
    ∧ wfScan none (runWrites chunkerInit fs).2 =
      some (if (splitAll fs.flatten).2 = [] then none
            else some (blockName (1 + (splitAll fs.flatten).1.length))) := by
  induction fs using List.reverseRecOn with
  | nil =>
    have h0 : splitAll (([] : List (List Char)).flatten) = ([], []) :=
      splitAll_none rfl
    refine ⟨?_, ?_, ?_, ?_⟩ <;> rw [h0] <;> rfl
  | append_singleton fs f ih =>
    obtain ⟨ihs, iht, ihi, ihw⟩ := ih
    have hflat : (fs ++ [f]).flatten = fs.flatten ++ f := by simp
    have hsplit := splitAll_append fs.flatten f
    have hrw := runWrites_append chunkerInit fs [f]
    have hw1 : runWrites (runWrites chunkerInit fs).1 [f]
        = chunkerWrite (runWrites chunkerInit fs).1 f := by
      simp [runWrites]
    by_cases hR : (splitAll fs.flatten).2 = []
    · -- the previous writes left no open block: the loop starts closed
      simp only [hR, reduceIte, Nat.add_zero] at ihs iht ihi ihw
      have hcw : chunkerWrite (runWrites chunkerInit fs).1 f
          = closedResult (1 + (splitAll fs.flatten).1.length)
              (splitAll f).1 (splitAll f).2 := by
        rw [ihs, chunkerWrite_closed]
      have hsp2 : splitAll ((fs ++ [f]).flatten)
          = ((splitAll fs.flatten).1 ++ (splitAll f).1, (splitAll f).2) := by
        rw [hflat, hsplit, hR, List.nil_append]
      refine ⟨?_, ?_, ?_, ?_⟩
      · rw [hrw]
        dsimp only
        rw [hw1, hcw, hsp2]
        dsimp only [closedResult]
        rw [List.length_append,
            Nat.add_assoc 1 (splitAll fs.flatten).1.length
              (splitAll f).1.length]
      · rw [hrw]
        dsimp only
        rw [hw1, trace_append, iht, hcw,
            traceFrom_closedResult _ _ _ _ rfl, hsp2]
        dsimp only
        rw [idLabel_append, List.length_append,
            Nat.add_assoc 1 (splitAll fs.flatten).1.length
              (splitAll f).1.length]
      · rw [hrw]
        dsimp only
        rw [hw1, startIds_append, ihi, hcw, startIds_closedResult,
            ← List.map_append, range'_append_one, hsp2]
        dsimp only
        rw [List.length_append,
            Nat.add_assoc (splitAll fs.flatten).1.length
              (splitAll f).1.length]
      · rw [hrw]
        dsimp only
        rw [hw1, hcw, wfScan_append, ihw]
        show wfScan none
            (closedResult (1 + (splitAll fs.flatten).1.length)
              (splitAll f).1 (splitAll f).2).2 = _
        rw [wfScan_closedResult, hsp2]
        dsimp only
        rw [List.length_append,
            Nat.add_assoc 1 (splitAll fs.flatten).1.length
              (splitAll f).1.length]
    · -- the previous writes left a block open
      simp only [if_neg hR] at ihs iht ihi ihw
      have hcw : chunkerWrite (runWrites chunkerInit fs).1 f
          = openResult (1 + (splitAll fs.flatten).1.length + 1)
              (blockName (1 + (splitAll fs.flatten).1.length))
              (splitAll ((splitAll fs.flatten).2 ++ f)).1
              (splitAll ((splitAll fs.flatten).2 ++ f)).2 := by
        rw [ihs, chunkerWrite_open _ _ _ _ hR]
      cases hP2 : (splitAll ((splitAll fs.flatten).2 ++ f)).1 with
      | nil =>
        have hR2 : (splitAll ((splitAll fs.flatten).2 ++ f)).2
            = (splitAll fs.flatten).2 ++ f := splitAll_parts_nil hP2
        have hR2ne : (splitAll ((splitAll fs.flatten).2 ++ f)).2 ≠ [] := by
          rw [hR2]
          simp [hR]
        have hsp2 : splitAll ((fs ++ [f]).flatten)
            = ((splitAll fs.flatten).1,
               (splitAll ((splitAll fs.flatten).2 ++ f)).2) := by
          rw [hflat, hsplit, hP2, List.append_nil]
        rw [hP2] at hcw
        refine ⟨?_, ?_, ?_, ?_⟩
        · rw [hrw]
          dsimp only
          rw [hw1, hcw, hsp2]
          dsimp only [openResult]
          simp only [if_neg hR2ne]
        · rw [hrw]
          dsimp only
          rw [hw1, trace_append, iht, hcw, traceFrom_openResult_nil, hsp2]
          dsimp only
          simp only [if_neg hR2ne]
        · rw [hrw]
          dsimp only
          rw [hw1, startIds_append, ihi, hcw, startIds_openResult_nil,
              List.append_nil, hsp2]
          dsimp only
          simp only [if_neg hR2ne]
        · rw [hrw]
          dsimp only
          rw [hw1, hcw, wfScan_append, ihw]
          show wfScan (some (blockName (1 + (splitAll fs.flatten).1.length)))
              (openResult (1 + (splitAll fs.flatten).1.length + 1)
                (blockName (1 + (splitAll fs.flatten).1.length)) []
                (splitAll ((splitAll fs.flatten).2 ++ f)).2).2 = _
          rw [wfScan_openResult_nil, hsp2]
          dsimp only
          simp only [if_neg hR2ne]
      | cons p ps =>
        have hsp2 : splitAll ((fs ++ [f]).flatten)
            = ((splitAll fs.flatten).1 ++ p :: ps,
               (splitAll ((splitAll fs.flatten).2 ++ f)).2) := by
          rw [hflat, hsplit, hP2]
        rw [hP2] at hcw
        have hn : 1 + (splitAll fs.flatten).1.length + 1 + ps.length
            = 1 + ((splitAll fs.flatten).1 ++ p :: ps).length := by
          simp
          omega
        refine ⟨?_, ?_, ?_, ?_⟩
        · rw [hrw]
          dsimp only
          rw [hw1, hcw]
          dsimp only [openResult, closedResult]
          rw [hsp2]
          dsimp only
          rw [hn]
        · rw [hrw]
          dsimp only
          rw [hw1, trace_append, iht, hcw, traceFrom_openResult_cons, hsp2]
          dsimp only
          rw [hn]
          have hlab : idLabel 1 ((splitAll fs.flatten).1 ++ p :: ps)
              = (idLabel 1 (splitAll fs.flatten).1
                  ++ [(blockName (1 + (splitAll fs.flatten).1.length), p)])
                ++ idLabel (1 + (splitAll fs.flatten).1.length + 1) ps := by
            rw [idLabel_append]
            simp [idLabel]
          rw [hlab]
        · rw [hrw]
          dsimp only
          rw [hw1, startIds_append, ihi, hcw, startIds_openResult_cons,
              Nat.add_assoc 1 (splitAll fs.flatten).1.length 1,
              ← List.map_append, range'_append_one, hsp2]
          dsimp only
          have hcnt : (splitAll fs.flatten).1.length + 1 +
                (ps.length +
                  (if (splitAll ((splitAll fs.flatten).2 ++ f)).2 = []
                   then 0 else 1))
              = ((splitAll fs.flatten).1 ++ p :: ps).length +
                (if (splitAll ((splitAll fs.flatten).2 ++ f)).2 = []
                 then 0 else 1) := by
            simp
            omega
          rw [hcnt]
        · rw [hrw]
          dsimp only
          rw [hw1, hcw, wfScan_append, ihw]
          show wfScan (some (blockName (1 + (splitAll fs.flatten).1.length)))
              (openResult (1 + (splitAll fs.flatten).1.length + 1)
                (blockName (1 + (splitAll fs.flatten).1.length)) (p :: ps)
                (splitAll ((splitAll fs.flatten).2 ++ f)).2).2 = _
          rw [wfScan_openResult_cons, hsp2]
          dsimp only
          rw [hn]

/-! ## End of stream -/

theorem chunkerEnd_nobuf (n : Nat) (cur : Option String) :
    chunkerEnd ⟨[], n, cur⟩ = (⟨[], n, cur⟩, [.streamEnd]) := by
  simp [chunkerEnd]

theorem chunkerEnd_buf (R : List Char) (n : Nat) (bid : String) (hR : R ≠ []) :
    chunkerEnd ⟨R, n, some bid⟩ =
      (⟨[], n, none⟩,
       [.blockUpdate bid R, .blockEnd bid, .streamEnd]) := by
  simp [chunkerEnd, hR, emitUpdate, emitClose]

/-- A whole session: the fragments are written in order, then `end()` is
called; the state and every event emitted, in order. -/
def runSession (fs : List (List Char)) : ChunkerState × List ChunkEvent :=
  ((chunkerEnd (runWrites chunkerInit fs).1).1,
   (runWrites chunkerInit fs).2 ++ (chunkerEnd (runWrites chunkerInit fs).1).2)

/-- The blocks a whole session carves out of the concatenated input: the
completed parts of the boundary scan, plus the final flushed buffer when the
input does not end exactly on a boundary marker. -/
def sessionBlocks (input : List Char) : List (List Char) :=
  (splitAll input).1 ++
    (if (splitAll input).2 = [] then [] else [(splitAll input).2])

/-- Characterization of a whole session. -/
theorem session_char (fs : List (List Char)) :
    (runSession fs).1 = ⟨[], 1 + (sessionBlocks fs.flatten).length, none⟩
    ∧ trace (runSession fs).2 = ⟨idLabel 1 (sessionBlocks fs.flatten), none⟩
    ∧ startIds (runSession fs).2 =
      (List.range' 1 (sessionBlocks fs.flatten).length).map blockName
    ∧ wfScan none (runSession fs).2 = some none := by
  obtain ⟨ihs, iht, ihi, ihw⟩ := run_char fs
  by_cases hR : (splitAll fs.flatten).2 = []
  · simp only [hR, reduceIte, Nat.add_zero] at ihs iht ihi ihw
    have hB : sessionBlocks fs.flatten = (splitAll fs.flatten).1 := by
      simp [sessionBlocks, hR]
    have hce : chunkerEnd (runWrites chunkerInit fs).1
        = ((runWrites chunkerInit fs).1, [.streamEnd]) := by
      rw [ihs, chunkerEnd_nobuf]
    refine ⟨?_, ?_, ?_, ?_⟩
    · show (chunkerEnd (runWrites chunkerInit fs).1).1 = _
      rw [hce, ihs, hB]
    · show trace ((runWrites chunkerInit fs).2 ++
        (chunkerEnd (runWrites chunkerInit fs).1).2) = _
      rw [hce, trace_append, iht, hB]
      simp [traceFrom, traceStep]
    · show startIds ((runWrites chunkerInit fs).2 ++
        (chunkerEnd (runWrites chunkerInit fs).1).2) = _
      rw [hce, startIds_append, ihi, hB]
      simp [startIds]
    · show wfScan none ((runWrites chunkerInit fs).2 ++
        (chunkerEnd (runWrites chunkerInit fs).1).2) = _
      rw [hce, wfScan_append, ihw]
      simp [wfScan, wfStep]
  · simp only [if_neg hR] at ihs iht ihi ihw
    have hB : sessionBlocks fs.flatten
        = (splitAll fs.flatten).1 ++ [(splitAll fs.flatten).2] := by
      simp [sessionBlocks, hR]
    have hce : chunkerEnd (runWrites chunkerInit fs).1
        = (⟨[], 1 + (splitAll fs.flatten).1.length + 1, none⟩,
           [.blockUpdate (blockName (1 + (splitAll fs.flatten).1.length))
              (splitAll fs.flatten).2,
            .blockEnd (blockName (1 + (splitAll fs.flatten).1.length)),
            .streamEnd]) := by
      rw [ihs, chunkerEnd_buf _ _ _ hR]
    have hlen : (sessionBlocks fs.flatten).length
        = (splitAll fs.flatten).1.length + 1 := by
      rw [hB]
      simp
    refine ⟨?_, ?_, ?_, ?_⟩
    · show (chunkerEnd (runWrites chunkerInit fs).1).1 = _
      rw [hce, hlen, Nat.add_assoc]
    · show trace ((runWrites chunkerInit fs).2 ++
        (chunkerEnd (runWrites chunkerInit fs).1).2) = _
      rw [hce, trace_append, iht, hB, idLabel_append]
      simp [traceFrom, traceStep, idLabel]
    · show startIds ((runWrites chunkerInit fs).2 ++
        (chunkerEnd (runWrites chunkerInit fs).1).2) = _
      rw [hce, startIds_append, ihi, hlen]
      simp [startIds]
    · show wfScan none ((runWrites chunkerInit fs).2 ++
        (chunkerEnd (runWrites chunkerInit fs).1).2) = _
      rw [hce, wfScan_append, ihw]
      simp [wfScan, wfStep]

/-! ## Intercalate and joinMarked -/

theorem intercalate_cons2 (sep a b : List Char) (rest : List (List Char)) :
    List.intercalate sep (a :: b :: rest) =
      a ++ sep ++ List.intercalate sep (b :: rest) := by
  simp [List.intercalate, List.intersperse]

theorem intercalate_append_last (l : List (List Char)) (x : List Char) :
    List.intercalate marker (l ++ [x]) = joinMarked l ++ x := by
  induction l with
  | nil => simp [List.intercalate, List.intersperse, joinMarked]
  | cons a l' ih =>
    have hc : (a :: l') ++ [x] = a :: (l' ++ [x]) := rfl
    rw [hc]
    cases hl : l' ++ [x] with
    | nil => simp at hl
    | cons b rest =>
      rw [intercalate_cons2, ← hl, ih, joinMarked_cons]
      simp

theorem intercalate_marked (l : List (List Char)) (hl : l ≠ []) :
    List.intercalate marker l ++ marker = joinMarked l := by
  induction l with
  | nil => exact absurd rfl hl
  | cons a l' ih =>
    cases hl' : l' with
    | nil => simp [List.intercalate, List.intersperse, joinMarked]
    | cons b rest =>
      rw [← hl', joinMarked_cons, hl', intercalate_cons2, ← hl']
      rw [List.append_assoc, List.append_assoc]
      rw [ih (by simp [hl'])]
      rw [List.append_assoc]

/-! ## C1: conservation -/

/-- C1 — Conservation.  First conjunct (holding after any sequence of
`write` calls, hence at every intermediate point of the session): the closed
blocks' final texts, each followed by the boundary marker that closed it,
concatenated with the Accumulation Buffer, account exactly for all bytes
written so far — none dropped, none duplicated.  Second conjunct: after
`end()`, the last cumulative update text of each block (in
identifier-issue order, which is emission order), joined by the boundary
marker `"\n\n"`, equals the concatenation of the fragments, up to one
trailing boundary marker when the input ends exactly on one. -/
theorem claim_C1 (fs : List (List Char)) :
    joinMarked (finalTexts (trace (runWrites chunkerInit fs).2))
        ++ (runWrites chunkerInit fs).1.buffer = fs.flatten
    ∧ (List.intercalate marker (finalTexts (trace (runSession fs).2))
         = fs.flatten
       ∨ List.intercalate marker (finalTexts (trace (runSession fs).2))
           ++ marker = fs.flatten) := by
  obtain ⟨ihs, iht, _, _⟩ := run_char fs
  obtain ⟨_, iht2, _, _⟩ := session_char fs
  have hft : finalTexts (trace (runSession fs).2) = sessionBlocks fs.flatten := by
    rw [iht2]
    simp [finalTexts, idLabel_snd]
  constructor
  · rw [iht, ihs]
    simp only [finalTexts]
    rw [idLabel_snd]
    exact splitAll_conserve fs.flatten
  · rw [hft]
    have hc := splitAll_conserve fs.flatten
    by_cases hR : (splitAll fs.flatten).2 = []
    · by_cases hP : (splitAll fs.flatten).1 = []
      · left
        rw [hP, hR] at hc
        simp only [joinMarked_nil, List.nil_append] at hc
        simp [sessionBlocks, hP, hR, List.intercalate, List.intersperse, hc]
      · right
        rw [hR, List.append_nil] at hc
        simp only [sessionBlocks, hR, reduceIte, List.append_nil]
        rw [intercalate_marked _ hP, hc]
    · left
      simp only [sessionBlocks, if_neg hR]
      rw [intercalate_append_last]
      exact hc

/-! ## C3: fragmentation invariance -/

/-- C3 — Fragmentation invariance.  Writing any fragmentation of a string
(fragments may split words or the boundary marker) and then calling `end()`
reaches the same chunker state and yields the same blocks — same final
texts, identifiers and boundaries — as writing the whole string in one
fragment; in particular the fragments `["ab", "cd\n", "\nef"]` followed by
`end()` close block 1 with `"abcd"` and block 2 with `"ef"`, exactly as
`"abcd\n\nef"` written at once does. -/
theorem claim_C3 (fs : List (List Char)) :
    (runWrites chunkerInit fs).1 = (runWrites chunkerInit [fs.flatten]).1
    ∧ (runSession fs).1 = (runSession [fs.flatten]).1
    ∧ trace (runSession fs).2 = trace (runSession [fs.flatten]).2
    ∧ trace (runSession ["ab".toList, "cd\n".toList, "\nef".toList]).2
      = ⟨[(blockName 1, "abcd".toList), (blockName 2, "ef".toList)], none⟩
    ∧ trace (runSession ["abcd\n\nef".toList]).2
      = ⟨[(blockName 1, "abcd".toList), (blockName 2, "ef".toList)], none⟩ := by
  have hflat : ([fs.flatten] : List (List Char)).flatten = fs.flatten := by
    simp
  refine ⟨?_, ?_, ?_, ?_, ?_⟩
  · rw [(run_char fs).1, (run_char [fs.flatten]).1, hflat]
  · rw [(session_char fs).1, (session_char [fs.flatten]).1, hflat]
  · rw [(session_char fs).2.1, (session_char [fs.flatten]).2.1, hflat]
  · rw [(session_char ["ab".toList, "cd\n".toList, "\nef".toList]).2.1]
    decide
  · rw [(session_char ["abcd\n\nef".toList]).2.1]
    decide

/-! ## C6: the Renderer Adapter is a pure completeness heuristic -/

/-- C6 — `MarkdownParser.parse` is a pure, deterministic function of its
text: re-invocation yields the same result, and `isComplete` holds iff the
number of non-overlapping ```` ``` ```` occurrences is even; on
`"```js\ncode"` it reports `isComplete = false` (one unmatched fence). -/
theorem claim_C6 (markedParse : List Char → List Char) (md : List Char) :
    ((mdParse markedParse md).isComplete = true ↔ Even (countFences md))
    ∧ mdParse markedParse md = mdParse markedParse md
    ∧ (mdParse markedParse ("```js\ncode".toList)).isComplete = false := by
  refine ⟨?_, rfl, ?_⟩
  · simp [mdParse, Nat.even_iff]
  · show (countFences ("```js\ncode".toList) % 2 == 0) = false
    decide

/-! ## C7: updates are cumulative -/

/-- C7 — Cumulative updates.  After any sequence of writes, the open
block's latest update (recorded in the trace) carries the *entire*
accumulation buffer, i.e. every byte attributed to that block across all
the writes that fed it — never a delta; the closed blocks' last updates
are exactly the completed parts of the scan of the whole input, and
together with the open block's latest text they reconstruct the input
exactly.  The two-write example `["ab", "cd"]` yields updates `"ab"` then
`"abcd"` on the same block. -/
theorem claim_C7 (fs : List (List Char)) :
    ((trace (runWrites chunkerInit fs).2).openBlock =
      if (splitAll fs.flatten).2 = [] then none
      else some (blockName (1 + (splitAll fs.flatten).1.length),
                 (splitAll fs.flatten).2))
    ∧ ((trace (runWrites chunkerInit fs).2).openBlock.map Prod.snd).getD []
        = (runWrites chunkerInit fs).1.buffer
    ∧ joinMarked (finalTexts (trace (runWrites chunkerInit fs).2))
        ++ ((trace (runWrites chunkerInit fs).2).openBlock.map Prod.snd).getD []
        = fs.flatten
    ∧ (runWrites chunkerInit ["ab".toList, "cd".toList]).2 =
      [ChunkEvent.blockStart (blockName 1),
       ChunkEvent.blockUpdate (blockName 1) ("ab".toList),
       ChunkEvent.blockUpdate (blockName 1) ("abcd".toList)] := by
  obtain ⟨ihs, iht, _, _⟩ := run_char fs
  have hopen : ((trace (runWrites chunkerInit fs).2).openBlock.map
      Prod.snd).getD [] = (splitAll fs.flatten).2 := by
    rw [iht]
    by_cases hR : (splitAll fs.flatten).2 = [] <;> simp [hR]
  refine ⟨?_, ?_, ?_, ?_⟩
  · rw [iht]
  · rw [hopen, ihs]
  · rw [hopen, iht]
    simp only [finalTexts]
    rw [idLabel_snd]
    exact splitAll_conserve fs.flatten
  · have e1 : chunkerWrite chunkerInit ("ab".toList)
        = (⟨"ab".toList, 2, some (blockName 1)⟩,
           [ChunkEvent.blockStart (blockName 1),
            ChunkEvent.blockUpdate (blockName 1) ("ab".toList)]) := by
      rw [show chunkerInit = ⟨[], 1, none⟩ from rfl, chunkerWrite_closed]
      decide
    have e2 : chunkerWrite ⟨"ab".toList, 2, some (blockName 1)⟩ ("cd".toList)
        = (⟨"abcd".toList, 2, some (blockName 1)⟩,
           [ChunkEvent.blockUpdate (blockName 1) ("abcd".toList)]) := by
      rw [chunkerWrite_open _ _ _ _ (by decide)]
      decide
    have hconv : (runWrites chunkerInit ["ab".toList, "cd".toList]).2
        = (chunkerWrite chunkerInit ("ab".toList)).2 ++
          ((chunkerWrite (chunkerWrite chunkerInit ("ab".toList)).1
              ("cd".toList)).2 ++ []) := rfl
    rw [hconv, e1, e2]
    simp

/-! ## Injectivity of the decimal block labels -/

/-- Value of a decimal digit string (read back from ASCII). -/
def digitsVal (l : List Char) : Nat :=
  l.foldl (fun a c => 10 * a + (c.toNat - 48)) 0

theorem digitsVal_append_singleton (l : List Char) (c : Char) :
    digitsVal (l ++ [c]) = 10 * digitsVal l + (c.toNat - 48) := by
  simp [digitsVal, List.foldl_append]

theorem digitChar_toNat {d : Nat} (hd : d < 10) :
    (Nat.digitChar d).toNat = 48 + d := by
  interval_cases d <;> rfl

theorem toDigitsCore_acc (fuel : Nat) : ∀ (n : Nat) (ds : List Char),
    Nat.toDigitsCore 10 fuel n ds = Nat.toDigitsCore 10 fuel n [] ++ ds := by
  induction fuel with
  | zero =>
    intro n ds
    simp [Nat.toDigitsCore]
  | succ fuel ih =>
    intro n ds
    simp only [Nat.toDigitsCore]
    by_cases h0 : n / 10 = 0
    · simp [h0]
    · simp only [h0, if_false]
      rw [ih (n / 10) (Nat.digitChar (n % 10) :: ds),
          ih (n / 10) [Nat.digitChar (n % 10)]]
      simp

theorem toDigitsCore_val (fuel : Nat) : ∀ n : Nat, n < fuel →
    digitsVal (Nat.toDigitsCore 10 fuel n []) = n := by
  induction fuel with
  | zero => intro n h; omega
  | succ fuel ih =>
    intro n h
    simp only [Nat.toDigitsCore]
    by_cases h0 : n / 10 = 0
    · rw [if_pos h0]
      show digitsVal [Nat.digitChar (n % 10)] = n
      simp only [digitsVal, List.foldl_cons, List.foldl_nil]
      rw [digitChar_toNat (show n % 10 < 10 by omega)]
      omega
    · rw [if_neg h0]
      rw [toDigitsCore_acc, digitsVal_append_singleton]
      have hlt : n / 10 < fuel := by omega
      rw [ih (n / 10) hlt, digitChar_toNat (show n % 10 < 10 by omega)]
      omega

theorem natRepr_injective {a b : Nat} (h : Nat.repr a = Nat.repr b) :
    a = b := by
  have hd : Nat.toDigitsCore 10 (a + 1) a [] =
      Nat.toDigitsCore 10 (b + 1) b [] := by
    have hdata := congrArg String.data h
    simpa [Nat.repr, Nat.toDigits, List.asString] using hdata
  have ha := toDigitsCore_val (a + 1) a (by omega)
  have hb := toDigitsCore_val (b + 1) b (by omega)
  rw [← ha, ← hb, hd]

theorem blockName_injective : Function.Injective blockName := by
  intro a b h
  have hd := congrArg String.data h
  simp only [blockName] at hd
  rw [String.data_append, String.data_append] at hd
  have h2 := List.append_cancel_left hd
  exact natRepr_injective (String.ext h2)

/-! ## C8: monotonic, never-reused identifiers -/

/-- C8 — Monotonic identifiers.  In any session, the identifiers carried by
`block-start` events are the labels `blockName` of the consecutive counter
values `1, 2, …, k`, in exactly the order in which block boundaries are
discovered; the underlying counter values are strictly increasing and never
repeat, the identifier strings themselves never repeat, and every
`block-update` / `block-end` event names exactly the identifier of the
block opened by the latest `block-start` (identifiers are immutable once
assigned — the well-formedness scan accepts the whole stream). -/
theorem claim_C8 (fs : List (List Char)) :
    ∃ k, startIds (runSession fs).2 = (List.range' 1 k).map blockName
      ∧ List.Pairwise (· < ·) (List.range' 1 k)
      ∧ (List.range' 1 k).Nodup
      ∧ (startIds (runSession fs).2).Nodup
      ∧ wfScan none (runSession fs).2 = some none := by
  obtain ⟨_, _, ihi, ihw⟩ := session_char fs
  refine ⟨(sessionBlocks fs.flatten).length, ihi, ?_, ?_, ?_, ihw⟩
  · exact List.pairwise_lt_range' _ _
  · exact List.nodup_range' _ _
  · rw [ihi]
    exact (List.nodup_range' _ _).map blockName_injective

/-! ## C9: empty blocks are emitted and forwarded -/

/-- Appending `"\n\n"` to marker-free text makes the scan cut: either just
before the appended marker, or one character earlier when the text ends in
a line break (the marker then spans the junction). -/
theorem cutOnce_marker_append : ∀ {u : List Char}, cutOnce u = none →
    ∀ x : List Char,
    cutOnce (u ++ '\n' :: '\n' :: x) =
      some (if u.getLast? = some '\n' then (u.dropLast, '\n' :: x)
            else (u, x)) := by
  intro u
  induction u with
  | nil =>
    intro _ x
    simp [cutOnce]
  | cons c tl ih =>
    intro h x
    match tl with
    | [] =>
      by_cases hc : c = '\n'
      · subst hc
        show cutOnce ('\n' :: '\n' :: '\n' :: x) = _
        simp [cutOnce]
      · show cutOnce (c :: '\n' :: '\n' :: x) = _
        rw [cutOnce, if_neg (by simp [hc])]
        have hin : cutOnce ('\n' :: '\n' :: x) = some ([], x) := by
          simp [cutOnce]
        rw [hin]
        simp [hc]
    | c2 :: rest =>
      rw [cutOnce] at h
      by_cases hm : c = '\n' ∧ c2 = '\n'
      · rw [if_pos hm] at h
        simp at h
      · rw [if_neg hm] at h
        have h2 : cutOnce (c2 :: rest) = none := by
          cases h2 : cutOnce (c2 :: rest) with
          | none => rfl
          | some pr' => rw [h2] at h; simp at h
        show cutOnce (c :: c2 :: (rest ++ '\n' :: '\n' :: x)) = _
        have ih' := ih h2 x
        rw [List.cons_append] at ih'
        rw [cutOnce, if_neg hm, ih']
        rw [List.getLast?_cons_cons, List.dropLast_cons₂]
        by_cases hl : (c2 :: rest).getLast? = some '\n' <;> simp [hl]

/-- Two adjacent boundary markers anywhere in the input always give rise to
a completed block whose text is empty. -/
theorem empty_mem_splitAll (u v : List Char) :
    [] ∈ (splitAll (u ++ '\n' :: '\n' :: '\n' :: '\n' :: v)).1 := by
  induction u using cut_induction with
  | base u h =>
    have hcut := cutOnce_marker_append h ('\n' :: '\n' :: v)
    by_cases hl : u.getLast? = some '\n'
    · rw [if_pos hl] at hcut
      rw [splitAll_some hcut]
      have hin : cutOnce ('\n' :: '\n' :: '\n' :: v) = some ([], '\n' :: v) := by
        simp [cutOnce]
      rw [splitAll_some hin]
      simp
    · rw [if_neg hl] at hcut
      rw [splitAll_some hcut]
      have hin : cutOnce ('\n' :: '\n' :: v) = some ([], v) := by
        simp [cutOnce]
      rw [splitAll_some hin]
      simp
  | step u pr h ih =>
    rw [splitAll_some (cutOnce_append h ('\n' :: '\n' :: '\n' :: '\n' :: v))]
    simp only [List.mem_cons]
    right
    exact ih

/-- A block text occurring in a parts list corresponds to a full
start/update/close event triple somewhere in `partsEvts`, and to an entry of
the labelled closed-blocks list. -/
theorem partsEvts_decomp : ∀ (ps : List (List Char)) (n : Nat),
    [] ∈ ps →
    ∃ m a b, partsEvts n ps =
        a ++ [ChunkEvent.blockStart (blockName m),
              ChunkEvent.blockUpdate (blockName m) [],
              ChunkEvent.blockEnd (blockName m)] ++ b
      ∧ (blockName m, ([] : List Char)) ∈ idLabel n ps := by
  intro ps
  induction ps with
  | nil => intro n h; simp at h
  | cons p ps ih =>
    intro n h
    rcases List.mem_cons.mp h with hp | hp
    · refine ⟨n, [], partsEvts (n + 1) ps, ?_, ?_⟩
      · rw [← hp]
        rfl
      · rw [← hp]
        simp [idLabel]
    · obtain ⟨m, a, b, hev, hmem⟩ := ih (n + 1) hp
      refine ⟨m, ChunkEvent.blockStart (blockName n) ::
          ChunkEvent.blockUpdate (blockName n) p ::
          ChunkEvent.blockEnd (blockName n) :: a, b, ?_, ?_⟩
      · show ChunkEvent.blockStart (blockName n) ::
            ChunkEvent.blockUpdate (blockName n) p ::
            ChunkEvent.blockEnd (blockName n) :: partsEvts (n + 1) ps = _
        rw [hev]
        simp
      · simp [idLabel, hmem]

/-! ## Mount Surface map lemmas -/

theorem setBlock_cons (k : String) (v : BlockEl) (tl : List (String × BlockEl))
    (bid : String) (f : BlockEl → BlockEl) :
    setBlock ((k, v) :: tl) bid f =
      (if k = bid then (k, f v) else (k, v)) :: setBlock tl bid f := by
  by_cases hk : k = bid <;> simp [setBlock, hk]

theorem lookup_setBlock (l : List (String × BlockEl)) (bid : String)
    (f : BlockEl → BlockEl) :
    (setBlock l bid f).lookup bid = (l.lookup bid).map f := by
  induction l with
  | nil => rfl
  | cons kv tl ih =>
    obtain ⟨k, v⟩ := kv
    rw [setBlock_cons]
    by_cases hk : k = bid
    · subst hk
      rw [if_pos rfl]
      have hb : (k == k) = true := by simp
      simp [List.lookup, hb]
    · rw [if_neg hk]
      have hb : (bid == k) = false := by
        simp
        exact fun hq => hk hq.symm
      simp [List.lookup, hb, ih]

theorem lookup_setBlock_ne (l : List (String × BlockEl)) (bid q : String)
    (f : BlockEl → BlockEl) (hq : q ≠ bid) :
    (setBlock l bid f).lookup q = l.lookup q := by
  induction l with
  | nil => rfl
  | cons kv tl ih =>
    obtain ⟨k, v⟩ := kv
    rw [setBlock_cons]
    by_cases hk : k = bid
    · subst hk
      rw [if_pos rfl]
      have hb : (q == k) = false := by
        simp
        exact hq
      simp [List.lookup, hb, ih]
    · rw [if_neg hk]
      cases hqk : (q == k) <;> simp [List.lookup, hqk, ih]

theorem lookup_setBlock_isSome (l : List (String × BlockEl)) (bid q : String)
    (f : BlockEl → BlockEl) :
    ((setBlock l bid f).lookup q).isSome = (l.lookup q).isSome := by
  by_cases hq : q = bid
  · subst hq
    rw [lookup_setBlock]
    cases l.lookup q <;> rfl
  · rw [lookup_setBlock_ne _ _ _ _ hq]

theorem lookup_append_isSome (l l' : List (String × BlockEl)) (bid : String)
    (h : (l.lookup bid).isSome = true) :
    ((l ++ l').lookup bid).isSome = true := by
  induction l with
  | nil => simp [List.lookup] at h
  | cons kv tl ih =>
    obtain ⟨k, v⟩ := kv
    cases hqk : (bid == k) with
    | true => simp [List.lookup, hqk]
    | false =>
      simp only [List.lookup, hqk] at h
      simp only [List.cons_append, List.lookup, hqk]
      exact ih h

theorem lookup_concat_isSome (l : List (String × BlockEl)) (bid : String)
    (el : BlockEl) :
    ((l ++ [(bid, el)]).lookup bid).isSome = true := by
  induction l with
  | nil => simp [List.lookup]
  | cons kv tl ih =>
    obtain ⟨k, v⟩ := kv
    cases hqk : (bid == k) with
    | true => simp [List.lookup, hqk]
    | false =>
      simp only [List.cons_append, List.lookup, hqk]
      exact ih

theorem updateBlock_lookup_isSome (r : RendererState) (bid' : String)
    (html : List Char) (bid : String) :
    ((updateBlock r bid' html).blocks.lookup bid).isSome
      = (r.blocks.lookup bid).isSome := by
  show ((setBlock r.blocks bid'
      fun el => { el with innerHTML := html }).lookup bid).isSome = _
  exact lookup_setBlock_isSome _ _ _ _

theorem finalizeBlock_lookup_isSome (r : RendererState) (bid' : String)
    (flag : Bool) (bid : String) :
    ((finalizeBlock r bid' flag).blocks.lookup bid).isSome
      = (r.blocks.lookup bid).isSome := by
  rw [finalizeBlock]
  split
  · show ((setBlock r.blocks bid'
        fun el => { el with finalized := true }).lookup bid).isSome = _
    exact lookup_setBlock_isSome _ _ _ _
  · rfl

/-! ## Orchestrator handler lemmas -/

theorem handleEvent_attached (mp it : List Char → List Char) (o : OrchState)
    (e : ChunkEvent) : (handleEvent mp it o e).attached = o.attached := by
  cases e with
  | streamEnd => rfl
  | blockStart bid =>
    simp only [handleEvent, onBlockStart]
    split <;> rfl
  | blockUpdate bid c =>
    simp only [handleEvent, onBlockUpdate]
    split <;> rfl
  | blockEnd bid =>
    simp only [handleEvent, onBlockEnd]
    split <;> rfl

theorem handleEvent_state (mp it : List Char → List Char) (o : OrchState)
    (e : ChunkEvent) (he : e ≠ ChunkEvent.streamEnd) :
    (handleEvent mp it o e).state = o.state := by
  cases e with
  | streamEnd => exact absurd rfl he
  | blockStart bid =>
    simp only [handleEvent, onBlockStart]
    split <;> rfl
  | blockUpdate bid c =>
    simp only [handleEvent, onBlockUpdate]
    split <;> rfl
  | blockEnd bid =>
    simp only [handleEvent, onBlockEnd]
    split <;> rfl

theorem handleEvent_keeps (mp it : List Char → List Char) (o : OrchState)
    (e : ChunkEvent) (bid : String)
    (h : (o.renderer.blocks.lookup bid).isSome = true) :
    ((handleEvent mp it o e).renderer.blocks.lookup bid).isSome = true := by
  cases e with
  | streamEnd => exact h
  | blockStart bid' =>
    simp only [handleEvent, onBlockStart]
    split
    · exact lookup_append_isSome _ _ _ h
    · exact h
  | blockUpdate bid' c =>
    simp only [handleEvent, onBlockUpdate]
    split
    · dsimp only
      rw [updateBlock_lookup_isSome]
      exact h
    · exact h
  | blockEnd bid' =>
    simp only [handleEvent, onBlockEnd]
    split
    · dsimp only
      rw [finalizeBlock_lookup_isSome]
      exact h
    · exact h

theorem foldl_handleEvent_keeps (mp it : List Char → List Char) :
    ∀ (evts : List ChunkEvent) (o : OrchState) (bid : String),
    (o.renderer.blocks.lookup bid).isSome = true →
    ((List.foldl (handleEvent mp it) o evts).renderer.blocks.lookup
      bid).isSome = true := by
  intro evts
  induction evts with
  | nil => intro o bid h; exact h
  | cons e rest ih =>
    intro o bid h
    rw [List.foldl_cons]
    exact ih _ _ (handleEvent_keeps _ _ _ _ _ h)

theorem foldl_handleEvent_creates (mp it : List Char → List Char) :
    ∀ (evts : List ChunkEvent) (o : OrchState) (bid : String),
    o.state = SessionState.processing →
    ChunkEvent.streamEnd ∉ evts →
    ChunkEvent.blockStart bid ∈ evts →
    ((List.foldl (handleEvent mp it) o evts).renderer.blocks.lookup
      bid).isSome = true := by
  intro evts
  induction evts with
  | nil => intro o bid _ _ hmem; simp at hmem
  | cons e rest ih =>
    intro o bid hst hse hmem
    rw [List.foldl_cons]
    by_cases he : e = ChunkEvent.blockStart bid
    · subst he
      refine foldl_handleEvent_keeps _ _ _ _ _ ?_
      show ((onBlockStart o bid).renderer.blocks.lookup bid).isSome = true
      rw [onBlockStart, if_pos hst]
      show ((o.renderer.blocks ++
          [(bid, (⟨[], false⟩ : BlockEl))]).lookup bid).isSome = true
      exact lookup_concat_isSome _ _ _
    · have hmem' : ChunkEvent.blockStart bid ∈ rest := by
        rcases List.mem_cons.mp hmem with h1 | h1
        · exact absurd h1.symm he
        · exact h1
      have hse' : ChunkEvent.streamEnd ∉ rest := fun hx =>
        hse (List.mem_cons_of_mem _ hx)
      have hnse : e ≠ ChunkEvent.streamEnd := fun hx =>
        hse (hx ▸ List.mem_cons_self _ _)
      refine ih _ _ ?_ hse' hmem'
      rw [handleEvent_state _ _ _ _ hnse]
      exact hst

theorem setBlock_lookup_none (l : List (String × BlockEl)) (bid : String)
    (f : BlockEl → BlockEl) (h : l.lookup bid = none) :
    setBlock l bid f = l := by
  induction l with
  | nil => rfl
  | cons kv tl ih =>
    obtain ⟨k, v⟩ := kv
    cases hqk : (bid == k) with
    | true => simp [List.lookup, hqk] at h
    | false =>
      simp only [List.lookup, hqk] at h
      rw [setBlock_cons, if_neg (fun hk => (ne_of_beq_false hqk) hk.symm), ih h]

/-! ## C2: block-close re-derives the text from the Mount Surface -/

/-- C2 — On a block-close event handled in processing state the
Orchestrator (i) re-derives the block's final text from what the renderer
currently holds for that identifier (`derivedFinalText`), recomputes
completeness on it and instructs the renderer to finalize with exactly that
flag; (ii) the outcome is a function of the Mount Surface contents alone
(two orchestrators in processing state whose renderers agree take the same
action, whatever separately retained copies differ); (iii) an existing
region ends up marked finalized iff it already was or its re-derived text
is structurally complete; (iv) a missing region makes the instruction a
no-op. -/
theorem claim_C2 (markedParse innerTextOf : List Char → List Char)
    (o : OrchState) (bid : String)
    (h : o.state = SessionState.processing) :
    handleEvent markedParse innerTextOf o (ChunkEvent.blockEnd bid)
      = { o with renderer :=
            (finalizeBlock o.renderer bid
              (mdParse markedParse
                (derivedFinalText innerTextOf o.renderer bid)).isComplete) }
    ∧ (∀ o', o'.state = SessionState.processing → o'.renderer = o.renderer →
        (handleEvent markedParse innerTextOf o'
            (ChunkEvent.blockEnd bid)).renderer
          = (handleEvent markedParse innerTextOf o
              (ChunkEvent.blockEnd bid)).renderer)
    ∧ (∀ el, o.renderer.blocks.lookup bid = some el →
        (handleEvent markedParse innerTextOf o
            (ChunkEvent.blockEnd bid)).renderer.blocks.lookup bid
          = some { el with finalized := el.finalized ||
              (mdParse markedParse (innerTextOf el.innerHTML)).isComplete })
    ∧ (o.renderer.blocks.lookup bid = none →
        (handleEvent markedParse innerTextOf o
            (ChunkEvent.blockEnd bid)).renderer = o.renderer) := by
  refine ⟨?_, ?_, ?_, ?_⟩
  · simp only [handleEvent, onBlockEnd, if_pos h]
  · intro o' h' hr
    simp only [handleEvent, onBlockEnd, if_pos h, if_pos h']
    rw [hr]
  · intro el hel
    simp only [handleEvent, onBlockEnd, if_pos h]
    have hd : derivedFinalText innerTextOf o.renderer bid
        = innerTextOf el.innerHTML := by
      simp [derivedFinalText, hel]
    rw [hd]
    cases hb : (mdParse markedParse (innerTextOf el.innerHTML)).isComplete with
    | true =>
      simp only [finalizeBlock, if_pos rfl]
      show (setBlock o.renderer.blocks bid
          fun el => { el with finalized := true }).lookup bid = _
      rw [lookup_setBlock, hel]
      simp
    | false =>
      simp only [finalizeBlock, Bool.false_eq_true, if_false]
      rw [hel]
      simp
  · intro hnone
    simp only [handleEvent, onBlockEnd, if_pos h]
    rw [finalizeBlock]
    split
    · show ({ blocks := (setBlock o.renderer.blocks bid
          fun el => { el with finalized := true }) } : RendererState)
          = o.renderer
      rw [setBlock_lookup_none _ _ _ hnone]
    · rfl

/-- Witness for C2 at a concrete state: one mounted region `"block-1"`
holding html `"x"`, identity render and innerText functions. -/
theorem claim_C2_witness :
    (handleEvent (fun x => x) (fun x => x)
        ⟨chunkerInit, ⟨[("block-1", ⟨"x".toList, false⟩)]⟩,
         SessionState.processing, true⟩
        (ChunkEvent.blockEnd "block-1")).renderer.blocks.lookup "block-1"
      = some ⟨"x".toList, false ||
          (mdParse (fun x => x) "x".toList).isComplete⟩ :=
  (claim_C2 (fun x => x) (fun x => x)
    ⟨chunkerInit, ⟨[("block-1", ⟨"x".toList, false⟩)]⟩,
     SessionState.processing, true⟩
    "block-1" rfl).2.2.1 ⟨"x".toList, false⟩ (by decide)

/-! ## C4: pause drops input silently and loses no buffered state -/

/-- C4 — In the paused state every `write` and `end` call is a complete
no-op: no Segmenter events are emitted and the whole state — Segmenter
accumulation buffer and all Mount Surface regions included — is unchanged,
so the dropped bytes never appear in any block; `resume` flips only the
lifecycle state, and a `pause`/`write`/`resume` round-trip from processing
state returns the orchestrator exactly to its pre-pause state, emitting
nothing. -/
theorem claim_C4 (markedParse innerTextOf : List Char → List Char)
    (o : OrchState) (chunk : List Char)
    (h : o.state = SessionState.paused) :
    orchStep markedParse innerTextOf o (Op.write chunk) = (o, [])
    ∧ orchStep markedParse innerTextOf o Op.endStream = (o, [])
    ∧ (orchStep markedParse innerTextOf o Op.resume).1
        = { o with state := SessionState.processing }
    ∧ (∀ o', o'.state = SessionState.processing →
        runOps markedParse innerTextOf o'
          [Op.pause, Op.write chunk, Op.resume] = (o', [])) := by
  refine ⟨?_, ?_, ?_, ?_⟩
  · simp [orchStep, h]
  · simp [orchStep, h]
  · simp [orchStep, h]
  · intro o' h'
    obtain ⟨oc, orr, ost, oat⟩ := o'
    cases h'
    simp [runOps, orchStep]

/-- Witness for C4 at a concrete paused state. -/
theorem claim_C4_witness :
    orchStep (fun x => x) (fun x => x)
        ⟨chunkerInit, ⟨[]⟩, SessionState.paused, true⟩ (Op.write ['x'])
      = (⟨chunkerInit, ⟨[]⟩, SessionState.paused, true⟩, []) :=
  (claim_C4 (fun x => x) (fun x => x)
    ⟨chunkerInit, ⟨[]⟩, SessionState.paused, true⟩ ['x'] rfl).1

/-! ## C5: destroy is final -/

/-- C5 — `destroy()` can be called from any state; it synchronously clears
every Mount Surface region and detaches the Segmenter listeners, the state
becomes `destroyed`, and afterwards every public call — `write`, `end`,
`pause`, `resume`, even another `destroy` — and every sequence of such
calls is a silent no-op: it emits nothing and leaves the destroyed state
and the (cleared) Mount Surface untouched. -/
theorem claim_C5 (markedParse innerTextOf : List Char → List Char)
    (o : OrchState) (op : Op) (ops : List Op) :
    ((orchStep markedParse innerTextOf o Op.destroy).1.state
        = SessionState.destroyed
     ∧ (orchStep markedParse innerTextOf o Op.destroy).1.renderer = ⟨[]⟩
     ∧ (orchStep markedParse innerTextOf o Op.destroy).1.attached = false)
    ∧ orchStep markedParse innerTextOf
        (orchStep markedParse innerTextOf o Op.destroy).1 op
      = ((orchStep markedParse innerTextOf o Op.destroy).1, [])
    ∧ runOps markedParse innerTextOf
        (orchStep markedParse innerTextOf o Op.destroy).1 ops
      = ((orchStep markedParse innerTextOf o Op.destroy).1, []) := by
  have hop : ∀ op', orchStep markedParse innerTextOf
      (orchStep markedParse innerTextOf o Op.destroy).1 op'
      = ((orchStep markedParse innerTextOf o Op.destroy).1, []) := by
    intro op'
    cases op' <;> simp [orchStep]
  refine ⟨⟨rfl, rfl, rfl⟩, hop op, ?_⟩
  induction ops with
  | nil => rfl
  | cons op' rest ih =>
    show runOps markedParse innerTextOf _ (op' :: rest) = _
    rw [runOps]
    rw [hop op']
    dsimp only
    rw [ih]
    rfl

/-! ## C10: after stream end the instance is permanently inert -/

theorem chunkerEnd_events_last (s : ChunkerState) :
    ∃ es, (chunkerEnd s).2 = es ++ [ChunkEvent.streamEnd] := by
  by_cases hb : s.buffer = []
  · exact ⟨[], by simp [chunkerEnd, hb]⟩
  · refine ⟨(emitUpdate s s.buffer).2 ++
      (emitClose { (emitUpdate s s.buffer).1 with buffer := [] }).2, ?_⟩
    simp [chunkerEnd, hb]

theorem foldl_handleEvent_streamEnd_last (mp it : List Char → List Char)
    (es : List ChunkEvent) (o : OrchState) :
    (List.foldl (handleEvent mp it) o
      (es ++ [ChunkEvent.streamEnd])).state = SessionState.idle := by
  rw [List.foldl_append]
  rfl

/-- C10 — Once the Segmenter's terminal event has moved the Orchestrator to
`idle` (which `end()` from processing state with attached listeners always
does), the instance is permanently inert: in `idle` state `write`, `end`,
`pause` and `resume` are complete no-ops — no events, no state change —
and so is any sequence of such calls; moreover no public operation ever
moves any state to `processing` except `resume` from `paused` (only
construction enters `processing` otherwise), so a second stream can never
be processed after `end()`. -/
theorem claim_C10 (markedParse innerTextOf : List Char → List Char)
    (o : OrchState) (chunk : List Char) :
    (o.state = SessionState.processing → o.attached = true →
      (orchStep markedParse innerTextOf o Op.endStream).1.state
        = SessionState.idle)
    ∧ (o.state = SessionState.idle →
        orchStep markedParse innerTextOf o (Op.write chunk) = (o, [])
        ∧ orchStep markedParse innerTextOf o Op.endStream = (o, [])
        ∧ orchStep markedParse innerTextOf o Op.pause = (o, [])
        ∧ orchStep markedParse innerTextOf o Op.resume = (o, []))
    ∧ (o.state = SessionState.idle → ∀ ops : List Op, Op.destroy ∉ ops →
        runOps markedParse innerTextOf o ops = (o, []))
    ∧ (∀ op, (orchStep markedParse innerTextOf o op).1.state
          = SessionState.processing →
        o.state = SessionState.processing
        ∨ (o.state = SessionState.paused ∧ op = Op.resume)) := by
  have hidle : o.state = SessionState.idle →
      ∀ op', op' ≠ Op.destroy →
      orchStep markedParse innerTextOf o op' = (o, []) := by
    intro h op' hop
    cases op' with
    | write c => simp [orchStep, h]
    | endStream => simp [orchStep, h]
    | pause => simp [orchStep, h]
    | resume => simp [orchStep, h]
    | destroy => exact absurd rfl hop
  refine ⟨?_, ?_, ?_, ?_⟩
  · intro h ha
    obtain ⟨es, hes⟩ := chunkerEnd_events_last o.chunker
    simp only [orchStep, if_pos h]
    show (dispatch markedParse innerTextOf _ (chunkerEnd o.chunker).2).state
      = SessionState.idle
    rw [dispatch, if_pos (show ({ o with
        chunker := (chunkerEnd o.chunker).1 } : OrchState).attached = true
        from ha), hes]
    exact foldl_handleEvent_streamEnd_last _ _ _ _
  · intro h
    exact ⟨hidle h _ (by simp), hidle h _ (by simp),
      hidle h _ (by simp), hidle h _ (by simp)⟩
  · intro h ops hops
    induction ops with
    | nil => rfl
    | cons op' rest ih =>
      have hop' : op' ≠ Op.destroy := fun hx =>
        hops (hx ▸ List.mem_cons_self _ _)
      have hrest : Op.destroy ∉ rest := fun hx =>
        hops (List.mem_cons_of_mem _ hx)
      show runOps markedParse innerTextOf o (op' :: rest) = _
      rw [runOps, hidle h op' hop']
      dsimp only
      rw [ih hrest]
      rfl
  · intro op hop
    cases op with
    | write c =>
      by_cases hg : o.state = SessionState.processing
      · exact Or.inl hg
      · left
        rw [← hop]
        simp [orchStep, hg]
    | endStream =>
      by_cases hg : o.state = SessionState.processing
      · exact Or.inl hg
      · left
        rw [← hop]
        simp [orchStep, hg]
    | pause =>
      by_cases hg : o.state = SessionState.processing
      · exact Or.inl hg
      · left
        rw [← hop]
        simp [orchStep, hg]
    | resume =>
      by_cases hg : o.state = SessionState.paused
      · exact Or.inr ⟨hg, rfl⟩
      · left
        rw [← hop]
        simp [orchStep, hg]
    | destroy =>
      simp [orchStep] at hop

/-- Witness for C10: ending the freshly-constructed orchestrator reaches
`idle`, and a concrete idle instance ignores `pause`. -/
theorem claim_C10_witness :
    (orchStep (fun x => x) (fun x => x) orchInit Op.endStream).1.state
      = SessionState.idle
    ∧ orchStep (fun x => x) (fun x => x)
        ⟨chunkerInit, ⟨[]⟩, SessionState.idle, true⟩ Op.pause
      = (⟨chunkerInit, ⟨[]⟩, SessionState.idle, true⟩, []) :=
  ⟨(claim_C10 (fun x => x) (fun x => x) orchInit []).1 rfl rfl,
   ((claim_C10 (fun x => x) (fun x => x)
      ⟨chunkerInit, ⟨[]⟩, SessionState.idle, true⟩ []).2.1 rfl).2.2.1⟩

theorem streamEnd_not_partsEvts : ∀ (ps : List (List Char)) (n : Nat),
    ChunkEvent.streamEnd ∉ partsEvts n ps := by
  intro ps
  induction ps with
  | nil => intro n h; simp [partsEvts] at h
  | cons p ps ih =>
    intro n h
    simp only [partsEvts, List.mem_cons] at h
    rcases h with h | h | h | h
    · exact ChunkEvent.noConfusion h
    · exact ChunkEvent.noConfusion h
    · exact ChunkEvent.noConfusion h
    · exact ih (n + 1) h

theorem streamEnd_not_tailEvts (m : Nat) (rem : List Char) :
    ChunkEvent.streamEnd ∉ tailEvts m rem := by
  by_cases hr : rem = [] <;> simp [tailEvts, hr]

theorem orchStep_endStream_keeps (mp it : List Char → List Char)
    (o : OrchState) (bid : String)
    (h : (o.renderer.blocks.lookup bid).isSome = true) :
    ((orchStep mp it o Op.endStream).1.renderer.blocks.lookup bid).isSome
      = true := by
  simp only [orchStep]
  split
  · show ((dispatch mp it { o with chunker := (chunkerEnd o.chunker).1 }
        (chunkerEnd o.chunker).2).renderer.blocks.lookup bid).isSome = true
    rw [dispatch]
    split
    · exact foldl_handleEvent_keeps _ _ _ _ _ h
    · exact h
  · exact h

/-- C9 — Empty-block policy.  Whenever the input contains two adjacent
boundary markers (with nothing between them), the session emits a full
`block-start` / `block-update` (with empty cumulative text) / `block-end`
triple, consecutively, for a block whose final content is the empty
string; that block appears as-is among the closed blocks of the trace
(never suppressed or merged), and the Orchestrator, fed the same input,
holds a mounted region for that block's identifier. -/
theorem claim_C9 (u v : List Char)
    (markedParse innerTextOf : List Char → List Char) :
    ∃ (m : Nat) (a b : List ChunkEvent),
      (runSession [u ++ marker ++ marker ++ v]).2
        = a ++ [ChunkEvent.blockStart (blockName m),
                ChunkEvent.blockUpdate (blockName m) [],
                ChunkEvent.blockEnd (blockName m)] ++ b
      ∧ (blockName m, ([] : List Char))
          ∈ (trace (runSession [u ++ marker ++ marker ++ v]).2).closed
      ∧ (((runOps markedParse innerTextOf orchInit
            [Op.write (u ++ marker ++ marker ++ v),
             Op.endStream]).1.renderer.blocks.lookup
            (blockName m)).isSome = true) := by
  have hmem : [] ∈ (splitAll (u ++ marker ++ marker ++ v)).1 := by
    have h := empty_mem_splitAll u v
    simpa [marker] using h
  obtain ⟨m, a, b, hdec, hlab⟩ :=
    partsEvts_decomp (splitAll (u ++ marker ++ marker ++ v)).1 1 hmem
  have hw : chunkerWrite chunkerInit (u ++ marker ++ marker ++ v)
      = closedResult 1 (splitAll (u ++ marker ++ marker ++ v)).1
          (splitAll (u ++ marker ++ marker ++ v)).2 :=
    chunkerWrite_closed 1 _
  have hsess : (runSession [u ++ marker ++ marker ++ v]).2
      = (chunkerWrite chunkerInit (u ++ marker ++ marker ++ v)).2
        ++ (chunkerEnd
            (chunkerWrite chunkerInit (u ++ marker ++ marker ++ v)).1).2 := by
    simp [runSession, runWrites]
  refine ⟨m, a,
    b ++ tailEvts (1 + (splitAll (u ++ marker ++ marker ++ v)).1.length)
        (splitAll (u ++ marker ++ marker ++ v)).2
      ++ (chunkerEnd
          (chunkerWrite chunkerInit (u ++ marker ++ marker ++ v)).1).2,
    ?_, ?_, ?_⟩
  · rw [hsess, hw]
    show (partsEvts 1 (splitAll (u ++ marker ++ marker ++ v)).1
        ++ tailEvts (1 + (splitAll (u ++ marker ++ marker ++ v)).1.length)
            (splitAll (u ++ marker ++ marker ++ v)).2) ++ _ = _
    rw [hdec]
    simp [List.append_assoc]
  · obtain ⟨_, iht, _, _⟩ := session_char [u ++ marker ++ marker ++ v]
    have hflat : ([u ++ marker ++ marker ++ v] :
        List (List Char)).flatten = u ++ marker ++ marker ++ v := by simp
    rw [hflat] at iht
    rw [iht]
    show (blockName m, ([] : List Char)) ∈ idLabel 1
      (sessionBlocks (u ++ marker ++ marker ++ v))
    rw [sessionBlocks, idLabel_append]
    exact List.mem_append_left _ hlab
  · have hrun : (runOps markedParse innerTextOf orchInit
        [Op.write (u ++ marker ++ marker ++ v), Op.endStream]).1
        = (orchStep markedParse innerTextOf
            (orchStep markedParse innerTextOf orchInit
              (Op.write (u ++ marker ++ marker ++ v))).1 Op.endStream).1 := by
      simp [runOps]
    rw [hrun]
    apply orchStep_endStream_keeps
    have hone : (orchStep markedParse innerTextOf orchInit
        (Op.write (u ++ marker ++ marker ++ v))).1
        = dispatch markedParse innerTextOf
            { orchInit with chunker :=
                (chunkerWrite orchInit.chunker (u ++ marker ++ marker ++ v)).1 }
            (chunkerWrite orchInit.chunker (u ++ marker ++ marker ++ v)).2 := by
      simp only [orchStep,
        if_pos (show orchInit.state = SessionState.processing from rfl)]
    rw [hone, dispatch, if_pos (show ({ orchInit with chunker :=
        (chunkerWrite orchInit.chunker
          (u ++ marker ++ marker ++ v)).1 } : OrchState).attached = true
        from rfl)]
    refine foldl_handleEvent_creates _ _ _ _ _ rfl ?_ ?_
    · rw [show orchInit.chunker = chunkerInit from rfl, hw]
      show ChunkEvent.streamEnd ∉
        partsEvts 1 (splitAll (u ++ marker ++ marker ++ v)).1
          ++ tailEvts (1 + (splitAll (u ++ marker ++ marker ++ v)).1.length)
              (splitAll (u ++ marker ++ marker ++ v)).2
      intro hx
      rcases List.mem_append.mp hx with hx | hx
      · exact streamEnd_not_partsEvts _ _ hx
      · exact streamEnd_not_tailEvts _ _ hx
    · rw [show orchInit.chunker = chunkerInit from rfl, hw]
      show ChunkEvent.blockStart (blockName m) ∈
        partsEvts 1 (splitAll (u ++ marker ++ marker ++ v)).1
          ++ tailEvts (1 + (splitAll (u ++ marker ++ marker ++ v)).1.length)
              (splitAll (u ++ marker ++ marker ++ v)).2
      apply List.mem_append_left
      rw [hdec]
      simp
